import Mathlib

/-
A shallow embedding of the `ssh-keys` library (`src/lib.rs`): parsing,
re-serialization, sizing and fingerprinting of SSH public keys in the
RFC 4253 §6.6 / RFC 5656 formats.

Text is modelled as `List Char` (Rust `&str`, compared character-wise) and
byte buffers as `List Nat` with every element `< 256` (Rust `Vec<u8>`).
The `reader`/`writer` modules and the external collaborators (base64 codec,
SHA-256 digest, UTF-8 conversion) are not part of `src/`; they are modelled
from the specification, as marked on each definition.
-/

namespace SshKeys

/-- Error kinds of the `errors` module in `lib.rs`: `InvalidFormat`,
`UnsupportedKeytype(t)`, `UnsupportedCurve(t)`, and the foreign-linked
UTF-8 decoding failure. -/
inductive SshErr where
  | InvalidFormat : SshErr
  | UnsupportedKeytype : List Char → SshErr
  | UnsupportedCurve : List Char → SshErr
  | Utf8 : SshErr
deriving DecidableEq

instance {ε α : Type} [DecidableEq ε] [DecidableEq α] : DecidableEq (Except ε α) := fun x y =>
  match x, y with
  | .ok a, .ok b => if h : a = b then isTrue (by rw [h]) else isFalse (by simp [h])
  | .error a, .error b => if h : a = b then isTrue (by rw [h]) else isFalse (by simp [h])
  | .ok _, .error _ => isFalse (by simp)
  | .error _, .ok _ => isFalse (by simp)

/-- `Curve`: the closed set of named elliptic curves for ECDSA. -/
inductive Curve where
  | Nistp256 : Curve
  | Nistp384 : Curve
  | Nistp521 : Curve
deriving DecidableEq

/-- `Data`: the algorithm-specific payload of a public key (`enum Data`). -/
inductive Data where
  | Rsa : (exponent : List Nat) → (modulus : List Nat) → Data
  | Dsa : (p : List Nat) → (q : List Nat) → (g : List Nat) → (pub_key : List Nat) → Data
  | Ed25519 : (key : List Nat) → Data
  | Ecdsa : (curve : Curve) → (key : List Nat) → Data
deriving DecidableEq

/-- `PublicKey`: the top-level entity, a payload plus an optional comment. -/
structure PublicKey where
  data : Data
  comment : Option (List Char)
deriving DecidableEq

/-- The `SSH_RSA` identifier constant. -/
def SSH_RSA : List Char := "ssh-rsa".data

/-- The `SSH_DSA` identifier constant. -/
def SSH_DSA : List Char := "ssh-dss".data

/-- The `SSH_ED25519` identifier constant. -/
def SSH_ED25519 : List Char := "ssh-ed25519".data

/-- The `SSH_ECDSA_256` identifier constant. -/
def SSH_ECDSA_256 : List Char := "ecdsa-sha2-nistp256".data

/-- The `SSH_ECDSA_384` identifier constant. -/
def SSH_ECDSA_384 : List Char := "ecdsa-sha2-nistp384".data

/-- The `SSH_ECDSA_521` identifier constant. -/
def SSH_ECDSA_521 : List Char := "ecdsa-sha2-nistp521".data

/-- The `NISTP_256` curve-name constant. -/
def NISTP_256 : List Char := "nistp256".data

/-- The `NISTP_384` curve-name constant. -/
def NISTP_384 : List Char := "nistp384".data

/-- The `NISTP_521` curve-name constant. -/
def NISTP_521 : List Char := "nistp521".data

/-- `Curve::get`: resolve a curve name to a `Curve`; an unrecognized name is
`UnsupportedCurve` carrying the name. -/
def Curve.get (curve : List Char) : Except SshErr Curve :=
  if curve = NISTP_256 then .ok .Nistp256
  else if curve = NISTP_384 then .ok .Nistp384
  else if curve = NISTP_521 then .ok .Nistp521
  else .error (.UnsupportedCurve curve)

/-- `Curve::curvetype`: the canonical wire name of a curve. -/
def Curve.curvetype : Curve → List Char
  | .Nistp256 => NISTP_256
  | .Nistp384 => NISTP_384
  | .Nistp521 => NISTP_521

/-- Modelled from the spec: the UTF-8 encoding of one character, part of the
out-of-scope text/bytes boundary (Rust `str::as_bytes`, not in `src/`). -/
def utf8EncodeChar (c : Char) : List Nat :=
  let n := c.toNat
  if n < 128 then [n]
  else if n < 2048 then [192 + n / 64, 128 + n % 64]
  else if n < 65536 then [224 + n / 4096, 128 + n / 64 % 64, 128 + n % 64]
  else [240 + n / 262144, 128 + n / 4096 % 64, 128 + n / 64 % 64, 128 + n % 64]

/-- Modelled from the spec: the UTF-8 encoding of a string as raw bytes
(Rust `str::as_bytes`, not in `src/`). -/
def utf8Encode (s : List Char) : List Nat :=
  s.foldr (fun c acc => utf8EncodeChar c ++ acc) []

/-- Modelled from the spec: fuel-bounded core of UTF-8 decoding
(Rust `str::from_utf8`, not in `src/`); rejects malformed sequences,
overlong encodings and surrogate code points. -/
def utf8DecodeAux : Nat → List Nat → Option (List Char)
  | _, [] => some []
  | 0, _ :: _ => none
  | fuel + 1, b :: rest =>
    if b < 128 then (utf8DecodeAux fuel rest).map (fun s => Char.ofNat b :: s)
    else if b < 192 then none
    else if b < 224 then
      match rest with
      | b2 :: rest2 =>
        if 128 ≤ b2 ∧ b2 < 192 then
          let n := (b - 192) * 64 + (b2 - 128)
          if 128 ≤ n then (utf8DecodeAux fuel rest2).map (fun s => Char.ofNat n :: s)
          else none
        else none
      | [] => none
    else if b < 240 then
      match rest with
      | b2 :: b3 :: rest2 =>
        if (128 ≤ b2 ∧ b2 < 192) ∧ (128 ≤ b3 ∧ b3 < 192) then
          let n := (b - 224) * 4096 + (b2 - 128) * 64 + (b3 - 128)
          if 2048 ≤ n ∧ (n < 55296 ∨ 57344 ≤ n) then
            (utf8DecodeAux fuel rest2).map (fun s => Char.ofNat n :: s)
          else none
        else none
      | _ => none
    else if b < 248 then
      match rest with
      | b2 :: b3 :: b4 :: rest2 =>
        if (128 ≤ b2 ∧ b2 < 192) ∧ (128 ≤ b3 ∧ b3 < 192) ∧ (128 ≤ b4 ∧ b4 < 192) then
          let n := (b - 240) * 262144 + (b2 - 128) * 4096 + (b3 - 128) * 64 + (b4 - 128)
          if 65536 ≤ n ∧ n < 1114112 then
            (utf8DecodeAux fuel rest2).map (fun s => Char.ofNat n :: s)
          else none
        else none
      | _ => none
    else none

/-- Modelled from the spec: UTF-8 decoding of raw bytes
(Rust `str::from_utf8`, not in `src/`); `none` on invalid encodings. -/
def utf8Decode (l : List Nat) : Option (List Char) :=
  utf8DecodeAux l.length l

/-- Modelled from the spec: the standard base64 alphabet of the out-of-scope
base64 collaborator crate. -/
def b64Chars : List Char :=
  "ABCDEFGHIJKLMNOPQRSTUVWXYZabcdefghijklmnopqrstuvwxyz0123456789+/".data

/-- Modelled from the spec: the base64 alphabet character at an index. -/
def b64Char (n : Nat) : Char := b64Chars.getD n '?'

/-- Index of a character in a character list (used to invert the base64
alphabet table). -/
def idxOf : List Char → Char → Option Nat
  | [], _ => none
  | a :: as, c => if a = c then some 0 else (idxOf as c).map (· + 1)

/-- Modelled from the spec: the 6-bit value of a base64 alphabet character. -/
def b64Val (c : Char) : Option Nat := idxOf b64Chars c

/-- Modelled from the spec: standard base64 encoding with `=` padding
(`base64::encode` of the out-of-scope collaborator crate). -/
def base64EncodeL : List Nat → List Char
  | [] => []
  | [a] => [b64Char (a / 4), b64Char (a % 4 * 16), '=', '=']
  | [a, b] => [b64Char (a / 4), b64Char (a % 4 * 16 + b / 16), b64Char (b % 16 * 4), '=']
  | a :: b :: d :: rest =>
    b64Char (a / 4) :: b64Char (a % 4 * 16 + b / 16) ::
      b64Char (b % 16 * 4 + d / 64) :: b64Char (d % 64) :: base64EncodeL rest

/-- Modelled from the spec: standard base64 decoding with `=` padding
(`base64::decode` of the out-of-scope collaborator crate); `none` on
malformed input. -/
def base64DecodeL : List Char → Option (List Nat)
  | [] => some []
  | c1 :: c2 :: c3 :: c4 :: rest =>
    match b64Val c1, b64Val c2 with
    | some v1, some v2 =>
      if c3 = '=' then
        if c4 = '=' ∧ rest = [] ∧ v2 % 16 = 0 then some [v1 * 4 + v2 / 16] else none
      else
        match b64Val c3 with
        | some v3 =>
          if c4 = '=' then
            if rest = [] ∧ v3 % 4 = 0 then
              some [v1 * 4 + v2 / 16, v2 % 16 * 16 + v3 / 4]
            else none
          else
            match b64Val c4 with
            | some v4 =>
              (base64DecodeL rest).map
                (fun bs => (v1 * 4 + v2 / 16) :: (v2 % 16 * 16 + v3 / 4) :: (v3 % 4 * 64 + v4) :: bs)
            | none => none
        | none => none
    | _, _ => none
  | _ => none

/-- Fuel-bounded core of `str::split_whitespace`; the fuel is instantiated
with the input length, which each step strictly decreases. -/
def splitWsAux : Nat → List Char → List (List Char)
  | _, [] => []
  | 0, _ :: _ => []
  | fuel + 1, c :: cs =>
    if c.isWhitespace then splitWsAux fuel cs
    else (c :: cs.takeWhile (fun x => !x.isWhitespace)) ::
      splitWsAux fuel (cs.dropWhile (fun x => !x.isWhitespace))

/-- Rust `str::split_whitespace`: split on runs of whitespace, yielding the
(never-empty) tokens in order. -/
def splitWhitespace (l : List Char) : List (List Char) :=
  splitWsAux l.length l

/-- Modelled from the spec: the 4-byte big-endian length prefix written by the
`writer` module (not in `src/`). -/
def u32be (n : Nat) : List Nat :=
  [n / 16777216 % 256, n / 65536 % 256, n / 256 % 256, n % 256]

/-- Modelled from the spec: `Writer::write_bytes` (the `writer` module is not
in `src/`): a 4-byte big-endian length prefix followed by the raw bytes. -/
def writeBytesW (b : List Nat) : List Nat := u32be b.length ++ b

/-- Modelled from the spec: `Writer::write_string` (the `writer` module is not
in `src/`): length-prefixed UTF-8 bytes of the string. -/
def writeStringW (s : List Char) : List Nat := writeBytesW (utf8Encode s)

/-- Modelled from the spec: the body of the SSH mpint encoding (the `writer`
module is not in `src/`): a `0x00` byte is prepended when the first byte has
its high bit set; the empty sequence encodes as an empty field. -/
def mpintBody (b : List Nat) : List Nat :=
  match b with
  | x :: xs => if 128 ≤ x then 0 :: x :: xs else x :: xs
  | [] => []

/-- Modelled from the spec: `Writer::write_mpint` (the `writer` module is not
in `src/`). -/
def writeMpintW (b : List Nat) : List Nat := writeBytesW (mpintBody b)

/-- Modelled from the spec: `Reader::read_bytes` / the byte-level part of
`Reader::read_string` (the `reader` module is not in `src/`): read a 4-byte
big-endian length, then that many bytes; `InvalidFormat` if fewer than 4
bytes remain or the declared length exceeds the remaining buffer. Returns
the field and the remaining bytes. -/
def readBytesR : List Nat → Except SshErr (List Nat × List Nat)
  | b0 :: b1 :: b2 :: b3 :: rest =>
    let len := ((b0 * 256 + b1) * 256 + b2) * 256 + b3
    if len ≤ rest.length then .ok (rest.take len, rest.drop len)
    else .error .InvalidFormat
  | _ => .error .InvalidFormat

/-- Modelled from the spec: the sign-byte stripping of `Reader::read_mpint`
(the `reader` module is not in `src/`): strip exactly one leading `0x00` byte
if and only if the byte after it has its high bit set. -/
def stripMpint (b : List Nat) : List Nat :=
  match b with
  | 0 :: x :: rest => if 128 ≤ x then x :: rest else 0 :: x :: rest
  | _ => b

/-- Modelled from the spec: `Reader::read_mpint` (the `reader` module is not
in `src/`): a length-prefixed field with sign-byte stripping. -/
def readMpintR (l : List Nat) : Except SshErr (List Nat × List Nat) :=
  (readBytesR l).map (fun p => (stripMpint p.1, p.2))

/-- `PublicKey::keytype`: the canonical algorithm identifier, derived from the
`Data` variant (and the `Curve` for ECDSA). -/
def keytype (k : PublicKey) : List Char :=
  match k.data with
  | .Rsa _ _ => SSH_RSA
  | .Dsa _ _ _ _ => SSH_DSA
  | .Ed25519 _ => SSH_ED25519
  | .Ecdsa curve _ =>
    match curve with
    | .Nistp256 => SSH_ECDSA_256
    | .Nistp384 => SSH_ECDSA_384
    | .Nistp521 => SSH_ECDSA_521

/-- The variant-specific fields of `PublicKey::data`, in encode order. -/
def dataTail (k : PublicKey) : List Nat :=
  match k.data with
  | .Rsa exponent modulus => writeMpintW exponent ++ writeMpintW modulus
  | .Dsa p q g pub_key =>
    writeMpintW p ++ (writeMpintW q ++ (writeMpintW g ++ writeMpintW pub_key))
  | .Ed25519 key => writeBytesW key
  | .Ecdsa curve key => writeStringW curve.curvetype ++ writeBytesW key

/-- `PublicKey::data`: the binary wire payload — the algorithm identifier
string followed by the variant-specific fields in encode order. -/
def dataBytes (k : PublicKey) : List Nat :=
  writeStringW (keytype k) ++ dataTail k

/-- The per-algorithm decode dispatch inside `PublicKey::parse`: given the
line's keytype token and the wire bytes after the embedded identifier, read
the variant fields. -/
def decodeData (t : List Char) (r : List Nat) : Except SshErr Data :=
  if t = SSH_RSA then
    match readMpintR r with
    | .ok (e, r1) =>
      match readMpintR r1 with
      | .ok (n, _) => .ok (.Rsa e n)
      | .error err => .error err
    | .error err => .error err
  else if t = SSH_DSA then
    match readMpintR r with
    | .ok (p, r1) =>
      match readMpintR r1 with
      | .ok (q, r2) =>
        match readMpintR r2 with
        | .ok (g, r3) =>
          match readMpintR r3 with
          | .ok (y, _) => .ok (.Dsa p q g y)
          | .error err => .error err
        | .error err => .error err
      | .error err => .error err
    | .error err => .error err
  else if t = SSH_ED25519 then
    match readBytesR r with
    | .ok (key, _) => .ok (.Ed25519 key)
    | .error err => .error err
  else if t = SSH_ECDSA_256 ∨ t = SSH_ECDSA_384 ∨ t = SSH_ECDSA_521 then
    match readBytesR r with
    | .ok (cnb, r1) =>
      match utf8Decode cnb with
      | some cn =>
        match readBytesR r1 with
        | .ok (key, _) =>
          match Curve.get cn with
          | .ok curve => .ok (.Ecdsa curve key)
          | .error err => .error err
        | .error err => .error err
      | none => .error .Utf8
    | .error err => .error err
  else .error (.UnsupportedKeytype t)

/-- The payload stage of `PublicKey::parse`: base64-decode the data token,
read the embedded algorithm identifier string, require it to equal the
line's keytype token, then dispatch. -/
def parseData (t : List Char) (d : List Char) : Except SshErr Data :=
  match base64DecodeL d with
  | none => .error .InvalidFormat
  | some buf =>
    match readBytesR buf with
    | .ok (sb, r) =>
      match utf8Decode sb with
      | some s => if t = s then decodeData t r else .error .InvalidFormat
      | none => .error .Utf8
    | .error err => .error err

/-- The comment extraction of `PublicKey::parse`: the token after the data
token, if any, with an empty comment thrown out. -/
def commentOf (cs : List (List Char)) : Option (List Char) :=
  match cs with
  | c :: _ => if c = [] then none else some c
  | [] => none

/-- The token stage of `PublicKey::parse`: keytype token, data token, optional
comment token; fewer than two tokens is `InvalidFormat`. -/
def parseParts (t : List Char) (d : List Char) (cs : List (List Char)) :
    Except SshErr PublicKey :=
  match parseData t d with
  | .ok dat => .ok ⟨dat, commentOf cs⟩
  | .error err => .error err

/-- `PublicKey::parse`: split the line on whitespace and parse the parts. -/
def parse (l : List Char) : Except SshErr PublicKey :=
  match splitWhitespace l with
  | t :: d :: cs => parseParts t d cs
  | _ => .error .InvalidFormat

/-- `PublicKey::from_rsa`: construct a key from RSA components. -/
def fromRsa (e : List Nat) (n : List Nat) : PublicKey := ⟨.Rsa e n, none⟩

/-- `PublicKey::from_dsa`: construct a key from DSA components. -/
def fromDsa (p q g pkey : List Nat) : PublicKey := ⟨.Dsa p q g pkey, none⟩

/-- `PublicKey::set_comment`: replace the comment. -/
def setComment (k : PublicKey) (c : List Char) : PublicKey :=
  { k with comment := some c }

/-- `PublicKey::to_key_file` (and `Display`):
`format!("{} {} {}", keytype, base64(data), comment.unwrap_or_default())`. -/
def toKeyFile (k : PublicKey) : List Char :=
  keytype k ++ ' ' :: (base64EncodeL (dataBytes k) ++ ' ' :: k.comment.getD [])

/-- `PublicKey::size`: bit size of the stored key. -/
def size (k : PublicKey) : Nat :=
  match k.data with
  | .Rsa _ modulus => modulus.length * 8
  | .Dsa p _ _ _ => p.length * 8
  | .Ed25519 _ => 256
  | .Ecdsa curve _ =>
    match curve with
    | .Nistp256 => 256
    | .Nistp384 => 384
    | .Nistp521 => 521

/-- Modelled from the spec: the out-of-scope SHA-256 collaborator, treated as
an opaque 32-byte digest function of the input bytes. -/
def sha256Model (data : List Nat) : List Nat :=
  (List.range 32).map
    (fun i => (data.foldl (fun a b => a * 31 + b + i) (i + data.length)) % 256)

/-- `String::find('=')`: the index of the first `=` character, if any. -/
def findEqIdx : List Char → Option Nat
  | [] => none
  | c :: cs => if c = '=' then some 0 else (findEqIdx cs).map (· + 1)

/-- The padding truncation inside `PublicKey::fingerprint`: find the first
`=` and split the string off there, keeping the front part. -/
def truncAtFirstEq (s : List Char) : List Char :=
  match findEqIdx s with
  | some i => s.take i
  | none => s

/-- `PublicKey::fingerprint`: `"SHA256:"` followed by the base64 digest of
`data()`, truncated at the first `=`. -/
def fingerprint (k : PublicKey) : List Char :=
  "SHA256:".data ++ truncAtFirstEq (base64EncodeL (sha256Model (dataBytes k)))

/-- The friendly algorithm name used by `PublicKey::to_fingerprint_string`. -/
def friendlyName (k : PublicKey) : List Char :=
  match k.data with
  | .Rsa _ _ => "RSA".data
  | .Dsa _ _ _ _ => "DSA".data
  | .Ed25519 _ => "ED25519".data
  | .Ecdsa _ _ => "ECDSA".data

/-- `PublicKey::to_fingerprint_string`:
`format!("{} {} {} ({})", size, fingerprint, comment-or-"no comment", type)`. -/
def toFingerprintString (k : PublicKey) : List Char :=
  (Nat.repr (size k)).data ++ ' ' :: (fingerprint k ++ ' ' ::
    (k.comment.getD "no comment".data ++ ' ' :: '(' :: (friendlyName k ++ [')'])))

/-- Well-formedness of a byte list standing for a Rust `Vec<u8>`: each element
is a byte and the length (plus a possible mpint sign byte) fits in the
4-byte length prefix. -/
def WFBytes (l : List Nat) : Prop :=
  (∀ x ∈ l, x < 256) ∧ l.length + 1 < 4294967296

/-- Well-formedness of a key's components as Rust `Vec<u8>` values. -/
def WF (k : PublicKey) : Prop :=
  match k.data with
  | .Rsa e n => WFBytes e ∧ WFBytes n
  | .Dsa p q g y => WFBytes p ∧ WFBytes q ∧ WFBytes g ∧ WFBytes y
  | .Ed25519 kb => WFBytes kb
  | .Ecdsa _ kb => WFBytes kb

/-- The identifier `ecdsa-sha2-<curve>` determined by a curve (the keytype a
parsed ECDSA key reports). -/
def ecdsaId (cu : Curve) : List Char :=
  match cu with
  | .Nistp256 => SSH_ECDSA_256
  | .Nistp384 => SSH_ECDSA_384
  | .Nistp521 => SSH_ECDSA_521

/-- A well-formed ECDSA key line whose algorithm identifier comes from
`lc` while the embedded curve-name string is `cn` (they need not match). -/
def mkEcdsaLine (lc : Curve) (cn : List Char) (kb : List Nat) : List Char :=
  ecdsaId lc ++ ' ' ::
    base64EncodeL (writeStringW (ecdsaId lc) ++ (writeStringW cn ++ writeBytesW kb))

/-- Removal of all trailing `=` characters (the spec's description of the
fingerprint padding strip). -/
def dropTrailingEq (s : List Char) : List Char :=
  (s.reverse.dropWhile (fun c => c = '=')).reverse

/-- A well-formed `ssh-ed25519` key line with no comment field. -/
def edLineNoComment : List Char :=
  SSH_ED25519 ++ ' ' :: base64EncodeL (writeStringW SSH_ED25519 ++ writeBytesW [1, 2, 3])

/-- A line whose leading token is an unsupported identifier but whose payload
is well-formed base64 embedding that same identifier. -/
def unsupportedLine : List Char :=
  "ssh-zzz".data ++ ' ' :: base64EncodeL (writeStringW "ssh-zzz".data)

/-- A line whose leading token is `ssh-rsa` but whose payload embeds
`ssh-dss`. -/
def mismatchIdLine : List Char :=
  SSH_RSA ++ ' ' :: base64EncodeL (writeStringW SSH_DSA)

/-- A well-formed `ssh-rsa` key line with a comment. -/
def rsaSmallLine : List Char :=
  SSH_RSA ++ ' ' ::
    (base64EncodeL (writeStringW SSH_RSA ++ (writeMpintW [1] ++ writeMpintW [2])) ++
      ' ' :: "hi".data)

/-- A line with four whitespace-separated tokens: an `ssh-ed25519` key whose
comment text contains internal whitespace. -/
def fourTokenLine : List Char :=
  SSH_ED25519 ++ ' ' ::
    (base64EncodeL (writeStringW SSH_ED25519 ++ writeBytesW [7]) ++
      ' ' :: ("hello".data ++ ' ' :: "world".data))

instance : DecidablePred WFBytes := fun l =>
  inferInstanceAs (Decidable ((∀ x ∈ l, x < 256) ∧ l.length + 1 < 4294967296))

instance (k : PublicKey) : Decidable (WF k) := by
  unfold WF
  match k.data with
  | .Rsa e n => exact inferInstanceAs (Decidable (WFBytes e ∧ WFBytes n))
  | .Dsa p q g y => exact inferInstanceAs (Decidable (WFBytes p ∧ WFBytes q ∧ WFBytes g ∧ WFBytes y))
  | .Ed25519 kb => exact inferInstanceAs (Decidable (WFBytes kb))
  | .Ecdsa _ kb => exact inferInstanceAs (Decidable (WFBytes kb))

/-! ### Helper lemmas -/

theorem length_dropWhile_le' (p : Char → Bool) (l : List Char) :
    (l.dropWhile p).length ≤ l.length := by
  induction l with
  | nil => simp [List.dropWhile]
  | cons a as ih =>
    simp only [List.dropWhile]
    cases p a with
    | false => simp
    | true => simp; omega

theorem takeWhile_append_stop (p : Char → Bool) (t : List Char) (y : Char) (r : List Char)
    (h : ∀ x ∈ t, p x = true) (hy : p y = false) :
    (t ++ y :: r).takeWhile p = t := by
  induction t with
  | nil => simp [List.takeWhile, hy]
  | cons a as ih =>
    have ha : p a = true := h a (by simp)
    simp only [List.cons_append, List.takeWhile, ha, List.append_eq]
    rw [ih (fun x hx => h x (by simp [hx]))]

theorem dropWhile_append_stop (p : Char → Bool) (t : List Char) (y : Char) (r : List Char)
    (h : ∀ x ∈ t, p x = true) (hy : p y = false) :
    (t ++ y :: r).dropWhile p = y :: r := by
  induction t with
  | nil => simp [List.dropWhile, hy]
  | cons a as ih =>
    have ha : p a = true := h a (by simp)
    simp only [List.cons_append, List.dropWhile, ha, List.append_eq]
    exact ih (fun x hx => h x (by simp [hx]))

theorem takeWhile_all (p : Char → Bool) (t : List Char) (h : ∀ x ∈ t, p x = true) :
    t.takeWhile p = t := by
  induction t with
  | nil => rfl
  | cons a as ih =>
    have ha : p a = true := h a (by simp)
    simp only [List.takeWhile, ha]
    rw [ih (fun x hx => h x (by simp [hx]))]

theorem dropWhile_all (p : Char → Bool) (t : List Char) (h : ∀ x ∈ t, p x = true) :
    t.dropWhile p = [] := by
  induction t with
  | nil => rfl
  | cons a as ih =>
    have ha : p a = true := h a (by simp)
    simp only [List.dropWhile, ha]
    exact ih (fun x hx => h x (by simp [hx]))

theorem splitWsAux_fuel (fuel₁ fuel₂ : Nat) (l : List Char)
    (h₁ : l.length ≤ fuel₁) (h₂ : l.length ≤ fuel₂) :
    splitWsAux fuel₁ l = splitWsAux fuel₂ l := by
  induction fuel₁ generalizing fuel₂ l with
  | zero =>
    cases l with
    | nil => cases fuel₂ <;> rfl
    | cons c cs => simp at h₁
  | succ f ih =>
    cases l with
    | nil => cases fuel₂ <;> rfl
    | cons c cs =>
      cases fuel₂ with
      | zero => simp at h₂
      | succ g =>
        simp only [splitWsAux]
        by_cases hw : c.isWhitespace
        · simp only [hw, if_true]
          exact ih g cs (by simp at h₁; omega) (by simp at h₂; omega)
        · simp only [hw, Bool.false_eq_true, if_false]
          have hd := length_dropWhile_le' (fun x => !x.isWhitespace) cs
          rw [ih g _ (by simp at h₁; omega) (by simp at h₂; omega)]

theorem splitWhitespace_cons_ws (c : Char) (cs : List Char) (h : c.isWhitespace = true) :
    splitWhitespace (c :: cs) = splitWhitespace cs := by
  simp only [splitWhitespace, List.length_cons, splitWsAux, h, if_true]

theorem splitWhitespace_token (t : List Char) (y : Char) (r : List Char)
    (ht : t ≠ []) (h : ∀ x ∈ t, x.isWhitespace = false) (hy : y.isWhitespace = true) :
    splitWhitespace (t ++ y :: r) = t :: splitWhitespace r := by
  cases t with
  | nil => exact absurd rfl ht
  | cons c t' =>
    have hc : c.isWhitespace = false := h c (by simp)
    have hall : ∀ x ∈ t', (fun x => !x.isWhitespace) x = true := by
      intro x hx
      simp [h x (by simp [hx])]
    have hys : (fun x => !x.isWhitespace) y = false := by simp [hy]
    simp only [splitWhitespace, List.cons_append, List.length_cons, splitWsAux, hc,
      Bool.false_eq_true, if_false, List.append_eq]
    rw [takeWhile_append_stop _ t' y r hall hys, dropWhile_append_stop _ t' y r hall hys]
    rw [splitWsAux_fuel (t' ++ y :: r).length (y :: r).length (y :: r)
      (by simp) (by omega)]
    simp only [List.length_cons, splitWsAux, hy, if_true]

theorem splitWhitespace_single (t : List Char) (ht : t ≠ [])
    (h : ∀ x ∈ t, x.isWhitespace = false) :
    splitWhitespace t = [t] := by
  cases t with
  | nil => exact absurd rfl ht
  | cons c t' =>
    have hc : c.isWhitespace = false := h c (by simp)
    have hall : ∀ x ∈ t', (fun x => !x.isWhitespace) x = true := by
      intro x hx
      simp [h x (by simp [hx])]
    simp only [splitWhitespace, List.length_cons, splitWsAux, hc, Bool.false_eq_true, if_false,
      List.append_eq]
    rw [takeWhile_all _ t' hall, dropWhile_all _ t' hall]
    cases t'.length <;> rfl

theorem mem_splitWsAux_ne_nil (fuel : Nat) (l : List Char) (tok : List Char)
    (h : tok ∈ splitWsAux fuel l) : tok ≠ [] := by
  induction fuel generalizing l with
  | zero =>
    cases l with
    | nil => simp [splitWsAux] at h
    | cons c cs => simp [splitWsAux] at h
  | succ f ih =>
    cases l with
    | nil => simp [splitWsAux] at h
    | cons c cs =>
      simp only [splitWsAux] at h
      by_cases hw : c.isWhitespace
      · simp only [hw, if_true] at h
        exact ih cs h
      · simp only [hw, if_false] at h
        rcases List.mem_cons.mp h with h1 | h1
        · subst h1; simp
        · exact ih _ h1

theorem mem_splitWhitespace_ne_nil (l : List Char) (tok : List Char)
    (h : tok ∈ splitWhitespace l) : tok ≠ [] :=
  mem_splitWsAux_ne_nil l.length l tok h

theorem b64Val_b64Char : ∀ v, v < 64 → b64Val (b64Char v) = some v := by decide

theorem b64Char_ne_pad : ∀ v, v < 64 → b64Char v ≠ '=' := by decide

theorem b64Char_not_ws : ∀ v, v < 64 → (b64Char v).isWhitespace = false := by decide

theorem unit_div (x y k : Nat) (hy : y < k) (hk : 0 < k) : (x * k + y) / k = x := by
  rw [Nat.mul_comm x k, Nat.mul_add_div hk, Nat.div_eq_of_lt hy]
  omega

theorem unit_mod (x y k : Nat) (hy : y < k) : (x * k + y) % k = y := by
  rw [Nat.mul_comm x k, Nat.mul_add_mod, Nat.mod_eq_of_lt hy]

theorem base64_decode_encode (bs : List Nat) (h : ∀ x ∈ bs, x < 256) :
    base64DecodeL (base64EncodeL bs) = some bs := by
  induction bs using base64EncodeL.induct with
  | case1 => rfl
  | case2 a =>
    have ha : a < 256 := h a (by simp)
    have h1 := b64Val_b64Char (a / 4) (by omega)
    have h2 := b64Val_b64Char (a % 4 * 16) (by omega)
    have e1 : a % 4 * 16 % 16 = 0 := Nat.mul_mod_left _ _
    have e2 : a % 4 * 16 / 16 = a % 4 := Nat.mul_div_cancel _ (by norm_num)
    simp [base64EncodeL, base64DecodeL, h1, h2, e1, e2]
    omega
  | case3 a b =>
    have ha : a < 256 := h a (by simp)
    have hb : b < 256 := h b (by simp)
    have h1 := b64Val_b64Char (a / 4) (by omega)
    have h2 := b64Val_b64Char (a % 4 * 16 + b / 16) (by omega)
    have h3 := b64Val_b64Char (b % 16 * 4) (by omega)
    have hne : b64Char (b % 16 * 4) ≠ '=' := b64Char_ne_pad _ (by omega)
    have e1 : b % 16 * 4 % 4 = 0 := Nat.mul_mod_left _ _
    have e2 : (a % 4 * 16 + b / 16) / 16 = a % 4 := unit_div _ _ _ (by omega) (by norm_num)
    have e3 : (a % 4 * 16 + b / 16) % 16 = b / 16 := unit_mod _ _ _ (by omega)
    have e4 : b % 16 * 4 / 4 = b % 16 := Nat.mul_div_cancel _ (by norm_num)
    simp [base64EncodeL, base64DecodeL, h1, h2, h3, hne, e1, e2, e3, e4]
    omega
  | case4 a b d rest ih =>
    have ha : a < 256 := h a (by simp)
    have hb : b < 256 := h b (by simp)
    have hd : d < 256 := h d (by simp)
    have h1 := b64Val_b64Char (a / 4) (by omega)
    have h2 := b64Val_b64Char (a % 4 * 16 + b / 16) (by omega)
    have h3 := b64Val_b64Char (b % 16 * 4 + d / 64) (by omega)
    have h4 := b64Val_b64Char (d % 64) (by omega)
    have hne3 : b64Char (b % 16 * 4 + d / 64) ≠ '=' := b64Char_ne_pad _ (by omega)
    have hne4 : b64Char (d % 64) ≠ '=' := b64Char_ne_pad _ (by omega)
    have ih' := ih (fun x hx => h x (by simp [hx]))
    have e2 : (a % 4 * 16 + b / 16) / 16 = a % 4 := unit_div _ _ _ (by omega) (by norm_num)
    have e3 : (a % 4 * 16 + b / 16) % 16 = b / 16 := unit_mod _ _ _ (by omega)
    have e4 : (b % 16 * 4 + d / 64) / 4 = b % 16 := unit_div _ _ _ (by omega) (by norm_num)
    have e5 : (b % 16 * 4 + d / 64) % 4 = d / 64 := unit_mod _ _ _ (by omega)
    simp [base64EncodeL, base64DecodeL, h1, h2, h3, h4, hne3, hne4, ih', e2, e3, e4, e5]
    omega

theorem base64_encode_split (bs : List Nat) (h : ∀ x ∈ bs, x < 256) :
    ∃ body pad, base64EncodeL bs = body ++ pad ∧
      (∀ c ∈ body, c ≠ '=' ∧ c.isWhitespace = false) ∧
      (pad = [] ∨ pad = ['='] ∨ pad = ['=', '=']) := by
  induction bs using base64EncodeL.induct with
  | case1 => exact ⟨[], [], rfl, by simp, Or.inl rfl⟩
  | case2 a =>
    have ha : a < 256 := h a (by simp)
    refine ⟨[b64Char (a / 4), b64Char (a % 4 * 16)], ['=', '='], rfl, ?_, Or.inr (Or.inr rfl)⟩
    intro c hc
    rcases List.mem_cons.mp hc with h1 | h1
    · exact h1 ▸ ⟨b64Char_ne_pad _ (by omega), b64Char_not_ws _ (by omega)⟩
    · rcases List.mem_cons.mp h1 with h2 | h2
      · exact h2 ▸ ⟨b64Char_ne_pad _ (by omega), b64Char_not_ws _ (by omega)⟩
      · simp at h2
  | case3 a b =>
    have ha : a < 256 := h a (by simp)
    have hb : b < 256 := h b (by simp)
    refine ⟨[b64Char (a / 4), b64Char (a % 4 * 16 + b / 16), b64Char (b % 16 * 4)], ['='],
      rfl, ?_, Or.inr (Or.inl rfl)⟩
    intro c hc
    simp only [List.mem_cons, List.not_mem_nil, or_false] at hc
    rcases hc with h1 | h1 | h1 <;>
      exact h1 ▸ ⟨b64Char_ne_pad _ (by omega), b64Char_not_ws _ (by omega)⟩
  | case4 a b d rest ih =>
    have ha : a < 256 := h a (by simp)
    have hb : b < 256 := h b (by simp)
    have hd : d < 256 := h d (by simp)
    obtain ⟨body, pad, heq, hbody, hpad⟩ := ih (fun x hx => h x (by simp [hx]))
    refine ⟨b64Char (a / 4) :: b64Char (a % 4 * 16 + b / 16) ::
      b64Char (b % 16 * 4 + d / 64) :: b64Char (d % 64) :: body, pad, ?_, ?_, hpad⟩
    · simp [base64EncodeL, heq]
    · intro c hc
      simp only [List.mem_cons] at hc
      rcases hc with h1 | h1 | h1 | h1 | h1
      · exact h1 ▸ ⟨b64Char_ne_pad _ (by omega), b64Char_not_ws _ (by omega)⟩
      · exact h1 ▸ ⟨b64Char_ne_pad _ (by omega), b64Char_not_ws _ (by omega)⟩
      · exact h1 ▸ ⟨b64Char_ne_pad _ (by omega), b64Char_not_ws _ (by omega)⟩
      · exact h1 ▸ ⟨b64Char_ne_pad _ (by omega), b64Char_not_ws _ (by omega)⟩
      · exact hbody c h1

theorem base64_encode_not_ws (bs : List Nat) (h : ∀ x ∈ bs, x < 256) :
    ∀ c ∈ base64EncodeL bs, c.isWhitespace = false := by
  obtain ⟨body, pad, heq, hbody, hpad⟩ := base64_encode_split bs h
  intro c hc
  rw [heq] at hc
  rcases List.mem_append.mp hc with h1 | h1
  · exact (hbody c h1).2
  · rcases hpad with hp | hp | hp <;> subst hp
    · simp at h1
    · simp at h1; subst h1; decide
    · simp at h1; subst h1; decide

theorem base64_encode_ne_nil (bs : List Nat) (h : bs ≠ []) : base64EncodeL bs ≠ [] := by
  match bs with
  | [] => exact absurd rfl h
  | [a] => simp [base64EncodeL]
  | [a, b] => simp [base64EncodeL]
  | a :: b :: d :: rest => simp [base64EncodeL]

theorem char_toNat_lt (c : Char) : c.toNat < 1114112 := by
  have h := c.valid
  simp only [Char.toNat]
  rcases h with h | h <;> omega

theorem utf8EncodeChar_lt (c : Char) : ∀ x ∈ utf8EncodeChar c, x < 256 := by
  have hv := char_toNat_lt c
  intro x hx
  by_cases h1 : c.toNat < 128
  · simp [utf8EncodeChar, h1] at hx; omega
  · by_cases h2 : c.toNat < 2048
    · simp [utf8EncodeChar, h1, h2] at hx
      rcases hx with h | h <;> omega
    · by_cases h3 : c.toNat < 65536
      · simp [utf8EncodeChar, h1, h2, h3] at hx
        rcases hx with h | h | h <;> omega
      · simp [utf8EncodeChar, h1, h2, h3] at hx
        rcases hx with h | h | h | h <;> omega

theorem utf8Encode_lt (s : List Char) : ∀ x ∈ utf8Encode s, x < 256 := by
  induction s with
  | nil => simp [utf8Encode]
  | cons c cs ih =>
    intro x hx
    simp only [utf8Encode, List.foldr] at hx
    rcases List.mem_append.mp hx with h1 | h1
    · exact utf8EncodeChar_lt c x h1
    · exact ih x h1

theorem utf8Encode_ascii (s : List Char) (h : ∀ c ∈ s, c.toNat < 128) :
    utf8Encode s = s.map Char.toNat := by
  induction s with
  | nil => rfl
  | cons c cs ih =>
    have hc : c.toNat < 128 := h c (by simp)
    simp only [utf8Encode, List.foldr, List.map]
    rw [show utf8EncodeChar c = [c.toNat] by simp [utf8EncodeChar, hc]]
    rw [show List.foldr (fun c acc => utf8EncodeChar c ++ acc) [] cs = utf8Encode cs from rfl]
    rw [ih (fun x hx => h x (by simp [hx]))]
    rfl

theorem utf8DecodeAux_ascii (s : List Char) (fuel : Nat) (h : ∀ c ∈ s, c.toNat < 128)
    (hf : s.length ≤ fuel) : utf8DecodeAux fuel (s.map Char.toNat) = some s := by
  induction s generalizing fuel with
  | nil => cases fuel <;> rfl
  | cons c cs ih =>
    have hc : c.toNat < 128 := h c (by simp)
    cases fuel with
    | zero => simp at hf
    | succ f =>
      simp only [List.map, utf8DecodeAux, if_pos hc]
      rw [ih f (fun x hx => h x (by simp [hx])) (by simp at hf; omega)]
      simp [Char.ofNat_toNat]

theorem utf8_decode_encode_ascii (s : List Char) (h : ∀ c ∈ s, c.toNat < 128) :
    utf8Decode (utf8Encode s) = some s := by
  rw [utf8Encode_ascii s h, utf8Decode]
  exact utf8DecodeAux_ascii s _ h (by simp)

theorem u32be_lt (n : Nat) : ∀ x ∈ u32be n, x < 256 := by
  intro x hx
  simp [u32be] at hx
  rcases hx with h | h | h | h <;> omega

theorem readBytesR_writeBytesW (x r : List Nat) (h : x.length < 4294967296) :
    readBytesR (writeBytesW x ++ r) = .ok (x, r) := by
  have hlen : ((x.length / 16777216 % 256 * 256 + x.length / 65536 % 256) * 256 +
      x.length / 256 % 256) * 256 + x.length % 256 = x.length := by omega
  simp only [writeBytesW, u32be, List.cons_append, List.nil_append, List.append_assoc,
    readBytesR, hlen]
  rw [if_pos (by simp)]
  rw [List.take_left, List.drop_left]

theorem mpintBody_length (b : List Nat) : (mpintBody b).length ≤ b.length + 1 := by
  cases b with
  | nil => simp [mpintBody]
  | cons x xs =>
    simp only [mpintBody]
    by_cases h : 128 ≤ x <;> simp [h]

theorem readMpintR_writeMpintW (b r : List Nat) (h : b.length + 1 < 4294967296) :
    readMpintR (writeMpintW b ++ r) = .ok (stripMpint (mpintBody b), r) := by
  have hl := mpintBody_length b
  rw [readMpintR, writeMpintW, readBytesR_writeBytesW _ _ (by omega)]
  rfl

theorem stripMpint_mpintBody (b : List Nat) (h : b.head? ≠ some 0) :
    stripMpint (mpintBody b) = b := by
  cases b with
  | nil => rfl
  | cons x xs =>
    simp only [List.head?] at h
    have hx : x ≠ 0 := fun he => h (by rw [he])
    simp only [mpintBody]
    by_cases h128 : 128 ≤ x
    · simp [h128, stripMpint]
    · simp only [h128, if_false]
      cases x with
      | zero => exact absurd rfl hx
      | succ m =>
        cases xs with
        | nil => rfl
        | cons y ys => simp [stripMpint]

theorem mpintBody_strip (b : List Nat) :
    mpintBody (stripMpint (mpintBody b)) = mpintBody b := by
  cases b with
  | nil => rfl
  | cons x xs =>
    simp only [mpintBody]
    by_cases h128 : 128 ≤ x
    · simp only [h128, if_true, stripMpint, mpintBody]
    · simp only [h128, if_false]
      cases x with
      | succ m =>
        cases xs with
        | nil => simp [stripMpint, mpintBody, h128]
        | cons y ys => simp [stripMpint, mpintBody, h128]
      | zero =>
        cases xs with
        | nil => rfl
        | cons y ys =>
          simp only [stripMpint]
          by_cases hy : 128 ≤ y
          · simp [hy, mpintBody]
          · simp [hy, mpintBody]

theorem mpintBody_lt (b : List Nat) (h : ∀ x ∈ b, x < 256) :
    ∀ x ∈ mpintBody b, x < 256 := by
  intro x hx
  cases b with
  | nil => simp [mpintBody] at hx
  | cons a as =>
    simp only [mpintBody] at hx
    by_cases ha : 128 ≤ a
    · simp only [ha, if_true] at hx
      rcases List.mem_cons.mp hx with h1 | h1
      · omega
      · exact h x h1
    · simp only [ha, if_false] at hx
      exact h x hx

theorem writeBytesW_lt (x : List Nat) (h : ∀ a ∈ x, a < 256) :
    ∀ a ∈ writeBytesW x, a < 256 := by
  intro a ha
  rcases List.mem_append.mp ha with h1 | h1
  · exact u32be_lt _ a h1
  · exact h a h1

theorem writeStringW_lt (s : List Char) : ∀ a ∈ writeStringW s, a < 256 :=
  writeBytesW_lt _ (utf8Encode_lt s)

theorem writeMpintW_lt (b : List Nat) (h : ∀ x ∈ b, x < 256) :
    ∀ a ∈ writeMpintW b, a < 256 :=
  writeBytesW_lt _ (mpintBody_lt b h)

theorem keytype_facts (k : PublicKey) :
    keytype k ≠ [] ∧ (∀ ch ∈ keytype k, ch.isWhitespace = false) ∧
      (∀ ch ∈ keytype k, ch.toNat < 128) ∧
      (utf8Encode (keytype k)).length < 4294967296 := by
  rcases k with ⟨d, cm⟩
  cases d with
  | Rsa e n => simp only [keytype]; decide
  | Dsa p q g y => simp only [keytype]; decide
  | Ed25519 kb => simp only [keytype]; decide
  | Ecdsa cu kb =>
    cases cu with
    | Nistp256 => simp only [keytype]; decide
    | Nistp384 => simp only [keytype]; decide
    | Nistp521 => simp only [keytype]; decide

theorem curvetype_facts (cu : Curve) :
    (∀ ch ∈ cu.curvetype, ch.toNat < 128) ∧
      (utf8Encode cu.curvetype).length < 4294967296 ∧
      Curve.get cu.curvetype = .ok cu := by
  cases cu with
  | Nistp256 => exact ⟨by decide, by decide, by decide⟩
  | Nistp384 => exact ⟨by decide, by decide, by decide⟩
  | Nistp521 => exact ⟨by decide, by decide, by decide⟩

theorem dataBytes_lt (k : PublicKey) (h : WF k) : ∀ x ∈ dataBytes k, x < 256 := by
  intro x hx
  rcases List.mem_append.mp hx with h1 | h1
  · exact writeStringW_lt _ x h1
  · rcases k with ⟨d, cm⟩
    cases d with
    | Rsa e n =>
      obtain ⟨he, hn⟩ := h
      simp only [dataTail] at h1
      rcases List.mem_append.mp h1 with h2 | h2
      · exact writeMpintW_lt _ he.1 x h2
      · exact writeMpintW_lt _ hn.1 x h2
    | Dsa p q g y =>
      obtain ⟨hp, hq, hg, hy⟩ := h
      simp only [dataTail] at h1
      rcases List.mem_append.mp h1 with h2 | h2
      · exact writeMpintW_lt _ hp.1 x h2
      rcases List.mem_append.mp h2 with h3 | h3
      · exact writeMpintW_lt _ hq.1 x h3
      rcases List.mem_append.mp h3 with h4 | h4
      · exact writeMpintW_lt _ hg.1 x h4
      · exact writeMpintW_lt _ hy.1 x h4
    | Ed25519 kb =>
      simp only [dataTail] at h1
      exact writeBytesW_lt _ h.1 x h1
    | Ecdsa cu kb =>
      simp only [dataTail] at h1
      rcases List.mem_append.mp h1 with h2 | h2
      · exact writeStringW_lt _ x h2
      · exact writeBytesW_lt _ h.1 x h2

theorem dataBytes_ne_nil (k : PublicKey) : dataBytes k ≠ [] := by
  simp [dataBytes, writeStringW, writeBytesW, u32be]

theorem dataBytes_header (k : PublicKey) :
    readBytesR (dataBytes k) = .ok (utf8Encode (keytype k), dataTail k) := by
  have h := (keytype_facts k).2.2.2
  have := readBytesR_writeBytesW (utf8Encode (keytype k)) (dataTail k) h
  simpa [dataBytes, writeStringW] using this

theorem splitWhitespace_keyline (t b64 c : List Char)
    (ht : t ≠ []) (htw : ∀ ch ∈ t, ch.isWhitespace = false)
    (hb : b64 ≠ []) (hbw : ∀ ch ∈ b64, ch.isWhitespace = false)
    (hc : c ≠ []) (hcw : ∀ ch ∈ c, ch.isWhitespace = false) :
    splitWhitespace (t ++ ' ' :: (b64 ++ ' ' :: c)) = [t, b64, c] := by
  rw [splitWhitespace_token t ' ' _ ht htw (by decide)]
  rw [splitWhitespace_token b64 ' ' _ hb hbw (by decide)]
  rw [splitWhitespace_single c hc hcw]

theorem decodeData_tail (k : PublicKey) (hwf : WF k) :
    ∃ dat, decodeData (keytype k) (dataTail k) = .ok dat ∧
      ∀ cm, keytype ⟨dat, cm⟩ = keytype k ∧ dataTail ⟨dat, cm⟩ = dataTail k := by
  rcases k with ⟨d, cm₀⟩
  cases d with
  | Rsa e n =>
    obtain ⟨he, hn⟩ := hwf
    have h1 : readMpintR (writeMpintW e ++ writeMpintW n) =
        .ok (stripMpint (mpintBody e), writeMpintW n) :=
      readMpintR_writeMpintW e (writeMpintW n) he.2
    have h2 : readMpintR (writeMpintW n) = .ok (stripMpint (mpintBody n), []) := by
      have := readMpintR_writeMpintW n [] hn.2
      simpa using this
    refine ⟨.Rsa (stripMpint (mpintBody e)) (stripMpint (mpintBody n)), ?_, ?_⟩
    · simp [keytype, dataTail, decodeData, h1, h2]
    · intro cm
      refine ⟨rfl, ?_⟩
      simp only [dataTail, writeMpintW, mpintBody_strip]
  | Dsa p q g y =>
    obtain ⟨hp, hq, hg, hy⟩ := hwf
    have h1 : readMpintR (writeMpintW p ++ (writeMpintW q ++ (writeMpintW g ++ writeMpintW y))) =
        .ok (stripMpint (mpintBody p), writeMpintW q ++ (writeMpintW g ++ writeMpintW y)) :=
      readMpintR_writeMpintW p _ hp.2
    have h2 : readMpintR (writeMpintW q ++ (writeMpintW g ++ writeMpintW y)) =
        .ok (stripMpint (mpintBody q), writeMpintW g ++ writeMpintW y) :=
      readMpintR_writeMpintW q _ hq.2
    have h3 : readMpintR (writeMpintW g ++ writeMpintW y) =
        .ok (stripMpint (mpintBody g), writeMpintW y) :=
      readMpintR_writeMpintW g _ hg.2
    have h4 : readMpintR (writeMpintW y) = .ok (stripMpint (mpintBody y), []) := by
      have := readMpintR_writeMpintW y [] hy.2
      simpa using this
    refine ⟨.Dsa (stripMpint (mpintBody p)) (stripMpint (mpintBody q))
      (stripMpint (mpintBody g)) (stripMpint (mpintBody y)), ?_, ?_⟩
    · simp [keytype, dataTail, decodeData, h1, h2, h3, h4,
        (show ¬SSH_DSA = SSH_RSA by decide)]
    · intro cm
      refine ⟨rfl, ?_⟩
      simp only [dataTail, writeMpintW, mpintBody_strip]
  | Ed25519 kb =>
    have h1 : readBytesR (writeBytesW kb) = .ok (kb, []) := by
      have := readBytesR_writeBytesW kb [] (by have := hwf.2; omega)
      simpa using this
    refine ⟨.Ed25519 kb, ?_, fun cm => ⟨rfl, rfl⟩⟩
    simp [keytype, dataTail, decodeData, h1,
      (show ¬SSH_ED25519 = SSH_RSA by decide), (show ¬SSH_ED25519 = SSH_DSA by decide)]
  | Ecdsa cu kb =>
    obtain ⟨hascii, hlen, hget⟩ := curvetype_facts cu
    have hrt := utf8_decode_encode_ascii cu.curvetype hascii
    have h1 : readBytesR (writeStringW cu.curvetype ++ writeBytesW kb) =
        .ok (utf8Encode cu.curvetype, writeBytesW kb) := by
      rw [writeStringW]
      exact readBytesR_writeBytesW _ _ hlen
    have h2 : readBytesR (writeBytesW kb) = .ok (kb, []) := by
      have := readBytesR_writeBytesW kb [] (by have := hwf.2; omega)
      simpa using this
    refine ⟨.Ecdsa cu kb, ?_, fun cm => ⟨rfl, rfl⟩⟩
    cases cu with
    | Nistp256 =>
      simp [keytype, dataTail, decodeData, h1, h2, hrt, hget,
        (show ¬SSH_ECDSA_256 = SSH_RSA by decide), (show ¬SSH_ECDSA_256 = SSH_DSA by decide),
        (show ¬SSH_ECDSA_256 = SSH_ED25519 by decide)]
    | Nistp384 =>
      simp [keytype, dataTail, decodeData, h1, h2, hrt, hget,
        (show ¬SSH_ECDSA_384 = SSH_RSA by decide), (show ¬SSH_ECDSA_384 = SSH_DSA by decide),
        (show ¬SSH_ECDSA_384 = SSH_ED25519 by decide)]
    | Nistp521 =>
      simp [keytype, dataTail, decodeData, h1, h2, hrt, hget,
        (show ¬SSH_ECDSA_521 = SSH_RSA by decide), (show ¬SSH_ECDSA_521 = SSH_DSA by decide),
        (show ¬SSH_ECDSA_521 = SSH_ED25519 by decide)]

theorem parse_toKeyFile_aux (k : PublicKey) (c : List Char) (hc : k.comment = some c)
    (hcne : c ≠ []) (hcws : ∀ ch ∈ c, ch.isWhitespace = false) (hwf : WF k) :
    ∃ dat, parse (toKeyFile k) = .ok ⟨dat, some c⟩ ∧ toKeyFile ⟨dat, some c⟩ = toKeyFile k := by
  obtain ⟨htne, htw, hta, htl⟩ := keytype_facts k
  have hdlt := dataBytes_lt k hwf
  have hb64ne := base64_encode_ne_nil _ (dataBytes_ne_nil k)
  have hb64ws := base64_encode_not_ws _ hdlt
  have hline : toKeyFile k = keytype k ++ ' ' :: (base64EncodeL (dataBytes k) ++ ' ' :: c) := by
    simp [toKeyFile, hc]
  have hsplit := splitWhitespace_keyline (keytype k) (base64EncodeL (dataBytes k)) c
    htne htw hb64ne hb64ws hcne hcws
  have hb64 := base64_decode_encode _ hdlt
  have hhead := dataBytes_header k
  have hutf := utf8_decode_encode_ascii _ hta
  obtain ⟨dat, hdat, hpres⟩ := decodeData_tail k hwf
  refine ⟨dat, ?_, ?_⟩
  · rw [hline]
    simp only [parse, hsplit]
    simp [parseParts, parseData, hb64, hhead, hutf, hdat, commentOf, hcne]
  · obtain ⟨hkt, htl2⟩ := hpres (some c)
    simp [toKeyFile, dataBytes, hkt, htl2, hc]

/-- C1 (amended): the parse/re-serialize round-trip holds for every supported,
well-formed key line whose fields are separated by single spaces and which
carries a comment consisting of one non-empty whitespace-free token —
equivalently, for every line `to_key_file` produces from a well-formed key
with such a comment. (Lines with no comment gain a trailing space, and
whitespace runs are collapsed, so the round-trip fails for those.) -/
theorem c1_roundtrip_amended (k : PublicKey) (c : List Char) (hc : k.comment = some c)
    (hcne : c ≠ []) (hcws : ∀ ch ∈ c, ch.isWhitespace = false) (hwf : WF k) :
    Except.map toKeyFile (parse (toKeyFile k)) = .ok (toKeyFile k) := by
  obtain ⟨dat, h1, h2⟩ := parse_toKeyFile_aux k c hc hcne hcws hwf
  rw [h1, Except.map, h2]

/-- C1 (witness): the amended round-trip at a concrete single-spaced,
commented `ssh-ed25519` key. -/
theorem c1_roundtrip_amended_witness :
    Except.map toKeyFile (parse (toKeyFile ⟨.Ed25519 [1], some ['a']⟩)) =
      .ok (toKeyFile ⟨.Ed25519 [1], some ['a']⟩) :=
  c1_roundtrip_amended ⟨.Ed25519 [1], some ['a']⟩ ['a'] rfl (by decide) (by decide) (by decide)

/-- C1 (counterexample): a supported, well-formed key line with no comment
does not round-trip — `to_key_file` appends a trailing space, so the claim,
which includes comment-less lines, fails. -/
theorem c1_counterexample :
    parse edLineNoComment = .ok ⟨.Ed25519 [1, 2, 3], none⟩ ∧
      Except.map toKeyFile (parse edLineNoComment) = .ok (edLineNoComment ++ [' ']) ∧
      edLineNoComment ++ [' '] ≠ edLineNoComment := by
  refine ⟨by decide, by decide, ?_⟩
  intro h
  have := congrArg List.length h
  simp at this

/-- C2: reading back a written mpint returns exactly the original magnitude,
for every byte sequence with no leading zero byte (the minimal big-endian
magnitude of a non-negative integer), including the empty sequence and
sequences whose first byte has its high bit set. -/
theorem c2_mpint_roundtrip (b : List Nat) (hmin : b.head? ≠ some 0)
    (_hbytes : ∀ x ∈ b, x < 256) (hlen : b.length + 1 < 4294967296) :
    readMpintR (writeMpintW b) = .ok (b, []) := by
  rw [show writeMpintW b = writeMpintW b ++ [] by simp]
  rw [readMpintR_writeMpintW b [] hlen, stripMpint_mpintBody b hmin]

/-- C2 (witness): the mpint round-trip at the one-byte sequence `[0x85]`,
whose high bit is set. -/
theorem c2_mpint_roundtrip_witness : readMpintR (writeMpintW [133]) = .ok ([133], []) :=
  c2_mpint_roundtrip [133] (by decide) (by decide) (by decide)

/-- C6: `size()` is 8 × byte-length of the modulus for RSA, 8 × byte-length
of `p` for DSA, the constant 256 for Ed25519, and 256/384/521 for ECDSA
determined solely by the stored curve, independent of the stored point's
byte length and of the comment. -/
theorem c6_size :
    (∀ e n cm, size ⟨.Rsa e n, cm⟩ = 8 * n.length) ∧
      (∀ p q g y cm, size ⟨.Dsa p q g y, cm⟩ = 8 * p.length) ∧
      (∀ kb cm, size ⟨.Ed25519 kb, cm⟩ = 256) ∧
      (∀ cu kb kb' cm cm', size ⟨.Ecdsa cu kb, cm⟩ = size ⟨.Ecdsa cu kb', cm'⟩) ∧
      (∀ kb cm, size ⟨.Ecdsa .Nistp256 kb, cm⟩ = 256 ∧
        size ⟨.Ecdsa .Nistp384 kb, cm⟩ = 384 ∧ size ⟨.Ecdsa .Nistp521 kb, cm⟩ = 521) := by
  refine ⟨?_, ?_, ?_, ?_, ?_⟩
  · intro e n cm; simp [size, Nat.mul_comm]
  · intro p q g y cm; simp [size, Nat.mul_comm]
  · intro kb cm; rfl
  · intro cu kb kb' cm cm'; cases cu <;> rfl
  · intro kb cm; exact ⟨rfl, rfl, rfl⟩

/-- C8: `set_comment(c)` changes only the comment: keytype, data, size and
fingerprint are unchanged, and the re-serialized line is identical to the
original except that the trailing field equals `c`. -/
theorem c8_set_comment (k : PublicKey) (c : List Char) :
    keytype (setComment k c) = keytype k ∧
      dataBytes (setComment k c) = dataBytes k ∧
      size (setComment k c) = size k ∧
      fingerprint (setComment k c) = fingerprint k ∧
      toKeyFile (setComment k c) = keytype k ++ ' ' :: (base64EncodeL (dataBytes k) ++ ' ' :: c) ∧
      toKeyFile k = keytype k ++ ' ' :: (base64EncodeL (dataBytes k) ++ ' ' :: k.comment.getD []) :=
  ⟨rfl, rfl, rfl, rfl, rfl, rfl⟩

/-- C9: the encode-side operations are total — they are defined without an
error monad, mirroring the infallible Rust signatures, and for every key
(including ones built by `from_rsa`/`from_dsa` from arbitrary byte vectors)
they produce a value of the documented shape; in particular `data()` always
starts with a well-formed length-prefixed field holding the keytype. -/
theorem c9_encode_total (k : PublicKey) :
    readBytesR (dataBytes k) = .ok (utf8Encode (keytype k), dataTail k) ∧
      (∃ s, toKeyFile k = keytype k ++ ' ' :: s) ∧
      (∃ s, fingerprint k = "SHA256:".data ++ s) ∧
      (∃ s, toFingerprintString k = (Nat.repr (size k)).data ++ ' ' :: s) :=
  ⟨dataBytes_header k, ⟨_, rfl⟩, ⟨_, rfl⟩, ⟨_, rfl⟩⟩

/-- C10: parse keeps at most the first token after the base64 payload as the
comment (so everything after the comment's first token is discarded), and
whether a line parses successfully does not depend on the tokens after the
payload. -/
theorem c10_comment_first_token :
    (∀ l k t d c cs, parse l = .ok k → splitWhitespace l = t :: d :: c :: cs →
      k.comment = some c) ∧
      (∀ t d cs cs', (parseParts t d cs).isOk = (parseParts t d cs').isOk) := by
  constructor
  · intro l k t d c cs hp hs
    have hcne : c ≠ [] := mem_splitWhitespace_ne_nil l c (by rw [hs]; simp)
    rw [parse, hs] at hp
    simp only [parseParts] at hp
    cases hpd : parseData t d with
    | ok dat =>
      rw [hpd] at hp
      simp only [Except.ok.injEq] at hp
      rw [← hp]
      simp [commentOf, hcne]
    | error err =>
      rw [hpd] at hp
      simp at hp
  · intro t d cs cs'
    simp only [parseParts]
    cases parseData t d <;> rfl

/-- C10 (witness): a line whose comment text has internal whitespace parses
successfully and retains only the first comment token. -/
theorem c10_comment_first_token_witness :
    parse fourTokenLine = .ok ⟨.Ed25519 [7], some "hello".data⟩ ∧
      (∀ k, parse fourTokenLine = .ok k → k.comment = some "hello".data) := by
  refine ⟨by decide, fun k hk => ?_⟩
  exact c10_comment_first_token.1 fourTokenLine k SSH_ED25519
    (base64EncodeL (writeStringW SSH_ED25519 ++ writeBytesW [7])) "hello".data ["world".data]
    hk (by decide)

theorem sha256Model_length (d : List Nat) : (sha256Model d).length = 32 := by
  simp [sha256Model]

theorem sha256Model_lt (d : List Nat) : ∀ x ∈ sha256Model d, x < 256 := by
  intro x hx
  simp only [sha256Model, List.mem_map] at hx
  obtain ⟨i, _, hi⟩ := hx
  omega

theorem findEqIdx_no_pad (s : List Char) (h : ∀ c ∈ s, c ≠ '=') :
    findEqIdx s = none := by
  induction s with
  | nil => rfl
  | cons a as ih =>
    have ha : a ≠ '=' := h a (by simp)
    rw [findEqIdx, if_neg ha, ih (fun c hc => h c (by simp [hc]))]
    rfl

theorem findEqIdx_body_pad (body : List Char) (pr : List Char)
    (h : ∀ c ∈ body, c ≠ '=') :
    findEqIdx (body ++ '=' :: pr) = some body.length := by
  induction body with
  | nil => simp [findEqIdx]
  | cons a as ih =>
    have ha : a ≠ '=' := h a (by simp)
    rw [List.cons_append, findEqIdx, if_neg ha, ih (fun c hc => h c (by simp [hc]))]
    rfl

theorem trunc_body_pad (body pad : List Char) (hb : ∀ c ∈ body, c ≠ '=')
    (hp : pad = [] ∨ pad = ['='] ∨ pad = ['=', '=']) :
    truncAtFirstEq (body ++ pad) = body := by
  rcases hp with hp | hp | hp <;> subst hp
  · rw [truncAtFirstEq, List.append_nil, findEqIdx_no_pad body hb]
  · rw [truncAtFirstEq, findEqIdx_body_pad body [] hb]
    exact List.take_left body ['=']
  · rw [truncAtFirstEq, findEqIdx_body_pad body ['='] hb]
    exact List.take_left body ['=', '=']

theorem dropWhile_append_all (p : Char → Bool) (xs ys : List Char)
    (h : ∀ x ∈ xs, p x = true) : (xs ++ ys).dropWhile p = ys.dropWhile p := by
  induction xs with
  | nil => rfl
  | cons a as ih =>
    have ha : p a = true := h a (by simp)
    simp only [List.cons_append, List.dropWhile, ha]
    exact ih (fun x hx => h x (by simp [hx]))

theorem dropTrailing_body_pad (body pad : List Char) (hb : ∀ c ∈ body, c ≠ '=')
    (hp : pad = [] ∨ pad = ['='] ∨ pad = ['=', '=']) :
    dropTrailingEq (body ++ pad) = body := by
  have hpall : ∀ x ∈ pad.reverse, (fun c => decide (c = '=')) x = true := by
    rcases hp with hp | hp | hp <;> subst hp <;> simp
  rw [dropTrailingEq, List.reverse_append, dropWhile_append_all _ _ _ hpall]
  cases hbr : body.reverse with
  | nil =>
    have hbody0 : body = [] := by simpa using congrArg List.reverse hbr
    subst hbody0
    rfl
  | cons hch tl =>
    have hmem : hch ∈ body := by
      have h2 : hch ∈ body.reverse := by rw [hbr]; simp
      simpa using h2
    have hne : hch ≠ '=' := hb hch hmem
    have hd : decide (hch = '=') = false := by simp [hne]
    simp only [List.dropWhile, hd]
    rw [← hbr, List.reverse_reverse]

/-- C7: `fingerprint()` equals `"SHA256:"` followed by the base64 encoding of
the 32-byte digest of `data()` with all trailing `=` padding removed (the
code's truncation at the first `=` coincides with stripping the trailing
padding). -/
theorem c7_fingerprint (k : PublicKey) :
    fingerprint k =
      "SHA256:".data ++ dropTrailingEq (base64EncodeL (sha256Model (dataBytes k))) ∧
      (sha256Model (dataBytes k)).length = 32 := by
  obtain ⟨body, pad, heq, hbody, hpad⟩ := base64_encode_split _ (sha256Model_lt (dataBytes k))
  refine ⟨?_, sha256Model_length _⟩
  rw [fingerprint, heq, trunc_body_pad _ _ (fun c hc => (hbody c hc).1) hpad,
    dropTrailing_body_pad _ _ (fun c hc => (hbody c hc).1) hpad]

/-- C5 (amended): with six supported identifiers (`ssh-rsa`, `ssh-dss`,
`ssh-ed25519`, `ecdsa-sha2-nistp{256,384,521}`), a line whose leading token
is unsupported fails with `UnsupportedKeytype` carrying that token provided
its payload passes the earlier checks (base64 decodes, the embedded wire
string reads and equals the token); malformed base64 fails with
`InvalidFormat`, and an embedded wire string different from the leading
token fails with `InvalidFormat` — these checks run first, so they take
precedence over `UnsupportedKeytype`. No key is returned on failure. -/
theorem c5_error_cases :
    (∀ l t d cs buf sb r s, splitWhitespace l = t :: d :: cs →
        base64DecodeL d = some buf → readBytesR buf = .ok (sb, r) →
        utf8Decode sb = some s → s = t →
        t ∉ [SSH_RSA, SSH_DSA, SSH_ED25519, SSH_ECDSA_256, SSH_ECDSA_384, SSH_ECDSA_521] →
        parse l = .error (.UnsupportedKeytype t)) ∧
      (∀ l t d cs, splitWhitespace l = t :: d :: cs → base64DecodeL d = none →
        parse l = .error .InvalidFormat) ∧
      (∀ l t d cs buf sb r s, splitWhitespace l = t :: d :: cs →
        base64DecodeL d = some buf → readBytesR buf = .ok (sb, r) →
        utf8Decode sb = some s → s ≠ t → parse l = .error .InvalidFormat) := by
  refine ⟨?_, ?_, ?_⟩
  · intro l t d cs buf sb r s hs hb hr hu hst hns
    subst hst
    simp only [List.mem_cons, List.not_mem_nil, or_false, not_or] at hns
    obtain ⟨h1, h2, h3, h4, h5, h6⟩ := hns
    rw [parse, hs]
    simp [parseParts, parseData, decodeData, hb, hr, hu, h1, h2, h3, h4, h5, h6]
  · intro l t d cs hs hb
    rw [parse, hs]
    simp [parseParts, parseData, hb]
  · intro l t d cs buf sb r s hs hb hr hu hsne
    rw [parse, hs]
    simp [parseParts, parseData, hb, hr, hu,
      (show ¬t = s from fun hh => hsne hh.symm)]

/-- C5 (witness): each amended error case at a concrete line — an unsupported
identifier with a well-formed matching payload, a malformed base64 payload,
and an embedded identifier differing from the leading token. -/
theorem c5_error_cases_witness :
    parse unsupportedLine = .error (.UnsupportedKeytype "ssh-zzz".data) ∧
      parse "zzz !".data = .error .InvalidFormat ∧
      parse mismatchIdLine = .error .InvalidFormat := by
  refine ⟨?_, ?_, ?_⟩
  · exact c5_error_cases.1 unsupportedLine "ssh-zzz".data
      (base64EncodeL (writeStringW "ssh-zzz".data)) [] (writeStringW "ssh-zzz".data)
      (utf8Encode "ssh-zzz".data) [] "ssh-zzz".data (by decide) (by decide) (by decide)
      (by decide) (by decide) (by decide)
  · exact c5_error_cases.2.1 "zzz !".data "zzz".data "!".data [] (by decide) (by decide)
  · exact c5_error_cases.2.2 mismatchIdLine SSH_RSA (base64EncodeL (writeStringW SSH_DSA)) []
      (writeStringW SSH_DSA) (utf8Encode SSH_DSA) [] SSH_DSA (by decide) (by decide)
      (by decide) (by decide) (by decide)

/-- C5 (counterexample): a line whose leading token `zzz` is unsupported but
whose payload is malformed base64 fails with `InvalidFormat`, not with
`UnsupportedKeytype` as the claim states for any such line — the base64 and
embedded-identifier checks run before the keytype dispatch. -/
theorem c5_counterexample :
    (splitWhitespace "zzz !".data).head? = some "zzz".data ∧
      "zzz".data ∉ [SSH_RSA, SSH_DSA, SSH_ED25519, SSH_ECDSA_256, SSH_ECDSA_384,
        SSH_ECDSA_521] ∧
      parse "zzz !".data = .error .InvalidFormat ∧
      parse "zzz !".data ≠ .error (.UnsupportedKeytype "zzz".data) := by decide

/-- C4 (amended): in the ECDSA dispatch, parse reads the embedded curve-name
string and fails with `UnsupportedCurve` exactly when that name is not one
of `nistp256`/`nistp384`/`nistp521`; a recognized name always yields a key
with that curve, even when it differs from the curve named by the line's
algorithm-identifier suffix (no cross-check is performed). -/
theorem c4_curve_dispatch (lc : Curve) (cn : List Char) (kb : List Nat)
    (hascii : ∀ ch ∈ cn, ch.toNat < 128) (hcnlen : cn.length < 4294967296)
    (hkb : ∀ x ∈ kb, x < 256) (hkblen : kb.length < 4294967296) :
    parse (mkEcdsaLine lc cn kb) =
      Except.map (fun cu => (⟨.Ecdsa cu kb, none⟩ : PublicKey)) (Curve.get cn) := by
  have hidne : ecdsaId lc ≠ [] := by cases lc <;> decide
  have hidw : ∀ ch ∈ ecdsaId lc, ch.isWhitespace = false := by cases lc <;> decide
  have hida : ∀ ch ∈ ecdsaId lc, ch.toNat < 128 := by cases lc <;> decide
  have hidl : (utf8Encode (ecdsaId lc)).length < 4294967296 := by cases lc <;> decide
  have hplt : ∀ x ∈ writeStringW (ecdsaId lc) ++ (writeStringW cn ++ writeBytesW kb),
      x < 256 := by
    intro x hx
    rcases List.mem_append.mp hx with h | h
    · exact writeStringW_lt _ x h
    rcases List.mem_append.mp h with h2 | h2
    · exact writeStringW_lt _ x h2
    · exact writeBytesW_lt _ hkb x h2
  have hb64 := base64_decode_encode _ hplt
  have hb64ne : base64EncodeL (writeStringW (ecdsaId lc) ++
      (writeStringW cn ++ writeBytesW kb)) ≠ [] :=
    base64_encode_ne_nil _ (by simp [writeStringW, writeBytesW, u32be])
  have hb64ws := base64_encode_not_ws _ hplt
  have hsplit : splitWhitespace (mkEcdsaLine lc cn kb) =
      [ecdsaId lc, base64EncodeL (writeStringW (ecdsaId lc) ++
        (writeStringW cn ++ writeBytesW kb))] := by
    rw [mkEcdsaLine, splitWhitespace_token _ ' ' _ hidne hidw (by decide),
      splitWhitespace_single _ hb64ne hb64ws]
  have hr1 : readBytesR (writeStringW (ecdsaId lc) ++ (writeStringW cn ++ writeBytesW kb)) =
      .ok (utf8Encode (ecdsaId lc), writeStringW cn ++ writeBytesW kb) :=
    readBytesR_writeBytesW _ _ hidl
  have hcnl2 : (utf8Encode cn).length < 4294967296 := by
    rw [utf8Encode_ascii cn hascii]
    simpa using hcnlen
  have hr2 : readBytesR (writeStringW cn ++ writeBytesW kb) =
      .ok (utf8Encode cn, writeBytesW kb) :=
    readBytesR_writeBytesW _ _ hcnl2
  have hr3 : readBytesR (writeBytesW kb) = .ok (kb, []) := by
    have := readBytesR_writeBytesW kb [] hkblen
    simpa using this
  have hu1 := utf8_decode_encode_ascii _ hida
  have hu2 := utf8_decode_encode_ascii _ hascii
  simp only [parse, hsplit]
  cases lc with
  | Nistp256 =>
    simp only [ecdsaId] at hb64 hr1 hu1 ⊢
    cases hcg : Curve.get cn <;>
      simp [parseParts, parseData, decodeData, Except.map, hb64, hr1, hr2, hr3, hu1, hu2,
        commentOf, hcg,
        (show ¬SSH_ECDSA_256 = SSH_RSA by decide), (show ¬SSH_ECDSA_256 = SSH_DSA by decide),
        (show ¬SSH_ECDSA_256 = SSH_ED25519 by decide)]
  | Nistp384 =>
    simp only [ecdsaId] at hb64 hr1 hu1 ⊢
    cases hcg : Curve.get cn <;>
      simp [parseParts, parseData, decodeData, Except.map, hb64, hr1, hr2, hr3, hu1, hu2,
        commentOf, hcg,
        (show ¬SSH_ECDSA_384 = SSH_RSA by decide), (show ¬SSH_ECDSA_384 = SSH_DSA by decide),
        (show ¬SSH_ECDSA_384 = SSH_ED25519 by decide)]
  | Nistp521 =>
    simp only [ecdsaId] at hb64 hr1 hu1 ⊢
    cases hcg : Curve.get cn <;>
      simp [parseParts, parseData, decodeData, Except.map, hb64, hr1, hr2, hr3, hu1, hu2,
        commentOf, hcg,
        (show ¬SSH_ECDSA_521 = SSH_RSA by decide), (show ¬SSH_ECDSA_521 = SSH_DSA by decide),
        (show ¬SSH_ECDSA_521 = SSH_ED25519 by decide)]

/-- C4 (witness): the amended dispatch at a matching recognized name. -/
theorem c4_curve_dispatch_witness :
    parse (mkEcdsaLine .Nistp256 NISTP_256 [9]) =
      Except.map (fun cu => (⟨.Ecdsa cu [9], none⟩ : PublicKey)) (Curve.get NISTP_256) :=
  c4_curve_dispatch .Nistp256 NISTP_256 [9] (by decide) (by decide) (by decide) (by decide)

/-- C4 (counterexample): a line whose algorithm identifier names `nistp256`
but whose embedded curve-name string is `nistp521` parses successfully into
a `nistp521` key — it does not fail with `UnsupportedCurve` as the claim
requires for a mismatching name. -/
theorem c4_counterexample :
    parse (mkEcdsaLine .Nistp256 NISTP_521 [7]) = .ok ⟨.Ecdsa .Nistp521 [7], none⟩ ∧
      parse (mkEcdsaLine .Nistp256 NISTP_521 [7]) ≠
        .error (.UnsupportedCurve NISTP_521) := by decide

/-- The keytype reported for an ECDSA key is the identifier of its stored
curve. -/
theorem keytype_ecdsa (cu : Curve) (kb : List Nat) (cm : Option (List Char)) :
    keytype ⟨.Ecdsa cu kb, cm⟩ = ecdsaId cu := by
  cases cu <;> rfl

/-- C3 (amended): for every accepted line, `keytype()` equals the leading
token unless the key is ECDSA with an embedded curve-name that differs from
the algorithm-id suffix. Precisely: a non-ECDSA key always reports exactly
the leading token; an ECDSA key always derives its curve — and hence its
keytype — from the embedded curve-name string via `Curve::get`, the leading
token being some `ecdsa-sha2-*` identifier left uncross-checked, so the
reported keytype equals the leading token if and only if the resolved
curve's identifier equals it (matched-name lines report the leading token,
mismatched ones do not). The identifier embedded in the key's binary payload
always matches its `KeyData` variant: `data()` starts with the
length-prefixed keytype string. -/
theorem c3_keytype_consistency :
    (∀ l t d cs k, parse l = .ok k → splitWhitespace l = t :: d :: cs →
        ((∀ cu kb, k.data ≠ .Ecdsa cu kb) → keytype k = t) ∧
        (∀ cu kb, k.data = .Ecdsa cu kb →
          keytype k = ecdsaId cu ∧
          (t = SSH_ECDSA_256 ∨ t = SSH_ECDSA_384 ∨ t = SSH_ECDSA_521) ∧
          (∃ buf sb r cnb r1 cn r2,
            base64DecodeL d = some buf ∧ readBytesR buf = .ok (sb, r) ∧
            readBytesR r = .ok (cnb, r1) ∧ utf8Decode cnb = some cn ∧
            readBytesR r1 = .ok (kb, r2) ∧ Curve.get cn = .ok cu) ∧
          (keytype k = t ↔ ecdsaId cu = t))) ∧
      (∀ k, readBytesR (dataBytes k) = .ok (utf8Encode (keytype k), dataTail k)) := by
  refine ⟨?_, dataBytes_header⟩
  intro l t d cs k hp hs
  rw [parse, hs] at hp
  simp only [parseParts] at hp
  cases hpd : parseData t d with
  | error err => rw [hpd] at hp; simp at hp
  | ok dat =>
    rw [hpd] at hp
    simp only [Except.ok.injEq] at hp
    subst hp
    rw [parseData] at hpd
    cases hb : base64DecodeL d with
    | none => simp [hb] at hpd
    | some buf =>
      simp only [hb] at hpd
      cases hr : readBytesR buf with
      | error e => simp [hr] at hpd
      | ok pr =>
        obtain ⟨sb, r⟩ := pr
        simp only [hr] at hpd
        cases hu : utf8Decode sb with
        | none => simp [hu] at hpd
        | some s =>
          simp only [hu] at hpd
          by_cases hts : t = s
          · rw [if_pos hts] at hpd
            rw [decodeData] at hpd
            by_cases h1 : t = SSH_RSA
            · rw [if_pos h1] at hpd
              cases hm1 : readMpintR r with
              | error e => simp [hm1] at hpd
              | ok pr1 =>
                obtain ⟨e1, r1⟩ := pr1
                simp only [hm1] at hpd
                cases hm2 : readMpintR r1 with
                | error e => simp [hm2] at hpd
                | ok pr2 =>
                  obtain ⟨n1, r2⟩ := pr2
                  simp only [hm2] at hpd
                  simp only [Except.ok.injEq] at hpd
                  subst hpd
                  constructor
                  · intro _
                    simp [keytype, h1]
                  · intro cu kb hde
                    simp at hde
            · rw [if_neg h1] at hpd
              by_cases h2 : t = SSH_DSA
              · rw [if_pos h2] at hpd
                cases hm1 : readMpintR r with
                | error e => simp [hm1] at hpd
                | ok pr1 =>
                  obtain ⟨p1, r1⟩ := pr1
                  simp only [hm1] at hpd
                  cases hm2 : readMpintR r1 with
                  | error e => simp [hm2] at hpd
                  | ok pr2 =>
                    obtain ⟨q1, r2⟩ := pr2
                    simp only [hm2] at hpd
                    cases hm3 : readMpintR r2 with
                    | error e => simp [hm3] at hpd
                    | ok pr3 =>
                      obtain ⟨g1, r3⟩ := pr3
                      simp only [hm3] at hpd
                      cases hm4 : readMpintR r3 with
                      | error e => simp [hm4] at hpd
                      | ok pr4 =>
                        obtain ⟨y1, r4⟩ := pr4
                        simp only [hm4] at hpd
                        simp only [Except.ok.injEq] at hpd
                        subst hpd
                        constructor
                        · intro _
                          simp [keytype, h2]
                        · intro cu kb hde
                          simp at hde
              · rw [if_neg h2] at hpd
                by_cases h3 : t = SSH_ED25519
                · rw [if_pos h3] at hpd
                  cases hm1 : readBytesR r with
                  | error e => simp [hm1] at hpd
                  | ok pr1 =>
                    obtain ⟨k1, r1⟩ := pr1
                    simp only [hm1] at hpd
                    simp only [Except.ok.injEq] at hpd
                    subst hpd
                    constructor
                    · intro _
                      simp [keytype, h3]
                    · intro cu kb hde
                      simp at hde
                · rw [if_neg h3] at hpd
                  by_cases h4 : t = SSH_ECDSA_256 ∨ t = SSH_ECDSA_384 ∨ t = SSH_ECDSA_521
                  · rw [if_pos h4] at hpd
                    cases hm1 : readBytesR r with
                    | error e => simp [hm1] at hpd
                    | ok pr1 =>
                      obtain ⟨cnb, r1⟩ := pr1
                      simp only [hm1] at hpd
                      cases hcn : utf8Decode cnb with
                      | none => simp [hcn] at hpd
                      | some cn =>
                        simp only [hcn] at hpd
                        cases hm2 : readBytesR r1 with
                        | error e => simp [hm2] at hpd
                        | ok pr2 =>
                          obtain ⟨k1, r2⟩ := pr2
                          simp only [hm2] at hpd
                          cases hcg : Curve.get cn with
                          | error e => simp [hcg] at hpd
                          | ok cu0 =>
                            simp only [hcg] at hpd
                            simp only [Except.ok.injEq] at hpd
                            subst hpd
                            constructor
                            · intro hne
                              exact absurd rfl (hne cu0 k1)
                            · intro cu kb hde
                              have hde2 : Data.Ecdsa cu0 k1 = Data.Ecdsa cu kb := hde
                              injection hde2 with hcu hkb
                              subst hcu
                              subst hkb
                              refine ⟨keytype_ecdsa cu0 k1 (commentOf cs), h4,
                                ⟨buf, sb, r, cnb, r1, cn, r2, rfl, hr, hm1, hcn, hm2, hcg⟩, ?_⟩
                              rw [keytype_ecdsa]
                  · rw [if_neg h4] at hpd
                    simp at hpd
          · rw [if_neg hts] at hpd
            simp at hpd

/-- C3 (witness): the amended statement at concrete accepted lines — an
`ssh-rsa` line whose key reports the leading token, and a matched-name
`ecdsa-sha2-nistp384` line whose key reports the leading token via the
embedded-name boundary; plus the embedded-identifier conjunct at a key. -/
theorem c3_keytype_consistency_witness :
    (parse rsaSmallLine = .ok ⟨.Rsa [1] [2], some "hi".data⟩ ∧
        keytype ⟨.Rsa [1] [2], some "hi".data⟩ = SSH_RSA) ∧
      (parse (mkEcdsaLine .Nistp384 NISTP_384 [5]) = .ok ⟨.Ecdsa .Nistp384 [5], none⟩ ∧
        keytype ⟨.Ecdsa .Nistp384 [5], none⟩ = SSH_ECDSA_384) ∧
      readBytesR (dataBytes ⟨.Rsa [1] [2], some "hi".data⟩) =
        .ok (utf8Encode (keytype ⟨.Rsa [1] [2], some "hi".data⟩),
          dataTail ⟨.Rsa [1] [2], some "hi".data⟩) := by
  refine ⟨⟨by decide, ?_⟩, ⟨by decide, ?_⟩,
    c3_keytype_consistency.2 ⟨.Rsa [1] [2], some "hi".data⟩⟩
  · exact (c3_keytype_consistency.1 rsaSmallLine SSH_RSA
      (base64EncodeL (writeStringW SSH_RSA ++ (writeMpintW [1] ++ writeMpintW [2])))
      ["hi".data] ⟨.Rsa [1] [2], some "hi".data⟩ (by decide) (by decide)).1
      (fun cu kb hde => by simp at hde)
  · exact ((c3_keytype_consistency.1 (mkEcdsaLine .Nistp384 NISTP_384 [5]) SSH_ECDSA_384
      (base64EncodeL (writeStringW SSH_ECDSA_384 ++ (writeStringW NISTP_384 ++ writeBytesW [5])))
      [] ⟨.Ecdsa .Nistp384 [5], none⟩ (by decide) (by decide)).2 .Nistp384 [5]
      rfl).2.2.2.mpr (by decide)

/-- C3 (counterexample): an accepted `ecdsa-sha2-nistp256` line whose
embedded curve-name string is `nistp384` yields a key whose `keytype()` is
`ecdsa-sha2-nistp384`, different from the leading token of the line — the
claim's assertion that the identifier invariant holds "in particular" for
such mismatched ECDSA lines is false. -/
theorem c3_counterexample :
    parse (mkEcdsaLine .Nistp256 NISTP_384 [4]) = .ok ⟨.Ecdsa .Nistp384 [4], none⟩ ∧
      (splitWhitespace (mkEcdsaLine .Nistp256 NISTP_384 [4])).head? = some SSH_ECDSA_256 ∧
      keytype ⟨.Ecdsa .Nistp384 [4], none⟩ = SSH_ECDSA_384 ∧
      keytype ⟨.Ecdsa .Nistp384 [4], none⟩ ≠ SSH_ECDSA_256 := by decide

end SshKeys
